import Mathlib

/-!
Verification development for the process-supervision / multi-client
synchronization core of the cc-web server.

The JavaScript modules are shallowly embedded:
* identifiers (bookmark ids, project slugs, session ids, client handles,
  process ids, command strings) are opaque strings in the source and are
  modeled as natural numbers (`0` plays the role of a falsy/empty value
  where the source tests truthiness);
* JavaScript numbers are modeled as rationals, with `Option ℚ` where a
  value may be missing or non-finite;
* the module-level singleton maps (`tasks`, `sessionWatchers`, `watches`,
  the bookmark file) become explicit state values threaded through the
  functions;
* the event-driven watch scheduler becomes a step relation on an explicit
  state, with one event per asynchronous callback of the source (timer
  firing, tick-timeout firing, process exit).
-/

/-- Association-list lookup keyed by naturals (first match), mirroring
`Map.get` / object indexing in the source. -/
def alookup {β : Type} : List (Nat × β) → Nat → Option β
  | [], _ => none
  | p :: rest, k => if p.1 = k then some p.2 else alookup rest k

/-- Association-list update, mirroring `Map.set` / object property
assignment: replaces the value in place if the key exists, otherwise
appends a new entry. -/
def aset {β : Type} : List (Nat × β) → Nat → β → List (Nat × β)
  | [], k, v => [(k, v)]
  | p :: rest, k, v => if p.1 = k then (k, v) :: rest else p :: aset rest k v

/-- Association-list removal, mirroring `Map.delete` / `delete obj[k]`. -/
def aremove {β : Type} : List (Nat × β) → Nat → List (Nat × β)
  | [], _ => []
  | p :: rest, k => if p.1 = k then aremove rest k else p :: aremove rest k

/-- In-place replacement of the value stored under a key (the source
mutates the fields of the object held in the map, leaving the key set and
entry order unchanged). -/
def aupdate {β : Type} : List (Nat × β) → Nat → β → List (Nat × β)
  | [], _, _ => []
  | p :: rest, k, v => (if p.1 = k then (k, v) else p) :: aupdate rest k v

/-! ### TaskRegistry (src/server/lib/tasks.js) -/

/-- Task status, `status ∈ {idle, running, completed, error}`. -/
inductive TStatus
  | idle
  | running
  | completed
  | errored
deriving DecidableEq, Repr

/-- One per-session task record (`tasks.js`).  The cancellation handle
`abortController` is modeled as `Option Bool`: `none` when unset, and the
Bool records whether `abort()` has been signalled. -/
structure STask where
  status : TStatus
  resultCount : Nat
  abortController : Option Bool
deriving DecidableEq, Repr

/-- The module-level `tasks` map, sessionId → task. -/
def TaskMap : Type := Nat → Option STask

/-- `MAX_RESULTS_PER_TASK` from tasks.js. -/
def MAX_RESULTS_PER_TASK : Nat := 500

/-- `addTaskResult(task, result)` from tasks.js, acting on the task's
results list: push, then trim to the last `MAX_RESULTS_PER_TASK` entries
(`slice(-MAX_RESULTS_PER_TASK)`) when over the limit. -/
def addTaskResult {α : Type} (results : List α) (r : α) : List α :=
  let l := results ++ [r]
  if l.length > MAX_RESULTS_PER_TASK then l.drop (l.length - MAX_RESULTS_PER_TASK) else l

/-- `cancelTask(sessionId)` from tasks.js: abort only a running task that
has a cancellation handle; returns whether cancellation was triggered,
together with the registry afterwards. -/
def cancelTask (tm : TaskMap) (sessionId : Nat) : Bool × TaskMap :=
  match tm sessionId with
  | none => (false, tm)
  | some task =>
    if task.status = .running ∧ task.abortController.isSome then
      (true, fun s => if s = sessionId then some { task with abortController := some true } else tm s)
    else
      (false, tm)

/-! ### Bookmark store (src/server/lib/terminal-bookmarks.js) -/

/-- Bookmark scope. -/
inductive Scope
  | global
  | project
deriving DecidableEq, Repr

/-- Persisted per-bookmark watch configuration
`{enabled, interval, mode, timeout}`.  `interval`/`timeout` are JS numbers
(`none` = absent or non-finite). -/
structure WatchCfg where
  enabled : Bool
  interval : Option ℚ
  mode : Option Nat
  timeout : Option ℚ
deriving DecidableEq, Repr

/-- A stored bookmark entry.  `scopeTag` models the transient `_scope`
property the watch-update handler attaches before calling
`watchManager.startWatch`. -/
structure Bookmark where
  id : Nat
  command : Nat
  cwd : Option Nat
  createdAt : Nat
  watch : Option WatchCfg
  scopeTag : Option Scope
deriving DecidableEq, Repr

/-- The persisted bookmarks file `{ global: [...], projects: {...} }`. -/
structure BookmarksData where
  global : List Bookmark
  projects : List (Nat × List Bookmark)
deriving DecidableEq, Repr

/-- The list a scope/slug pair addresses: the global list, or the given
project's list (empty when the project has no entry yet). -/
def targetList (data : BookmarksData) (scope : Scope) (slug : Nat) : List Bookmark :=
  match scope with
  | .global => data.global
  | .project => (alookup data.projects slug).getD []

/-- The fresh entry `addBookmark` builds (`crypto.randomUUID()` and the
creation timestamp are passed in as parameters). -/
def mkEntry (newId cmd : Nat) (cwd : Option Nat) (ts : Nat) : Bookmark :=
  { id := newId, command := cmd, cwd := cwd, createdAt := ts, watch := none, scopeTag := none }

/-- `addBookmark(scope, projectSlug, command, cwd)` from
terminal-bookmarks.js, returning the persisted data afterwards: the entry
is appended only when no bookmark in the target list already has the same
command. -/
def addBookmark (data : BookmarksData) (scope : Scope) (slug cmd : Nat)
    (cwd : Option Nat) (newId ts : Nat) : BookmarksData :=
  match scope with
  | .global =>
    if data.global.any (fun b => b.command == cmd) then data
    else { data with global := data.global ++ [mkEntry newId cmd cwd ts] }
  | .project =>
    let pl := (alookup data.projects slug).getD []
    let pl' := if pl.any (fun b => b.command == cmd) then pl
               else pl ++ [mkEntry newId cmd cwd ts]
    { data with projects := aset data.projects slug pl' }

/-- Helper for `updateBookmarkWatch`: the source mutates the first
bookmark `find` returns, so only the first entry with the id is updated. -/
def updateFirst : List Bookmark → Nat → Option WatchCfg → List Bookmark
  | [], _, _ => []
  | b :: rest, bid, cfg =>
    if b.id = bid then { b with watch := cfg } :: rest
    else b :: updateFirst rest bid cfg

/-- `updateBookmarkWatch(scope, projectSlug, bookmarkId, watchConfig)`
from terminal-bookmarks.js, returning the persisted data afterwards.
For a non-global scope the (possibly empty) list is written back under
the slug. -/
def updateBookmarkWatch (data : BookmarksData) (scope : Scope) (slug bid : Nat)
    (cfg : Option WatchCfg) : BookmarksData :=
  match scope with
  | .global => { data with global := updateFirst data.global bid cfg }
  | .project =>
    let list := (alookup data.projects slug).getD []
    { data with projects := aset data.projects slug (updateFirst list bid cfg) }

/-- The flat `{ global, project }` view `getBookmarks(projectSlug)`
returns. -/
structure BookmarksView where
  global : List Bookmark
  project : List Bookmark
deriving DecidableEq, Repr

/-- `getBookmarks(projectSlug)` from terminal-bookmarks.js. -/
def getBookmarksView (data : BookmarksData) (slug : Nat) : BookmarksView :=
  { global := data.global, project := (alookup data.projects slug).getD [] }

/-! ### Basic association-list lemmas -/

theorem alookup_aset_self {β : Type} (l : List (Nat × β)) (k : Nat) (v : β) :
    alookup (aset l k v) k = some v := by
  induction l with
  | nil => simp [aset, alookup]
  | cons p rest ih =>
    by_cases h : p.1 = k
    · simp [aset, alookup, h]
    · simp [aset, alookup, h, ih]

theorem alookup_aset_other {β : Type} (l : List (Nat × β)) (k k' : Nat) (v : β)
    (h : ¬ k = k') : alookup (aset l k v) k' = alookup l k' := by
  induction l with
  | nil => simp [aset, alookup, h]
  | cons p rest ih =>
    by_cases hp : p.1 = k
    · have hpk : ¬ p.1 = k' := by rw [hp]; exact h
      simp [aset, alookup, hp, h, hpk]
    · simp only [aset, if_neg hp, alookup]
      rw [ih]

theorem alookup_aremove_self {β : Type} (l : List (Nat × β)) (k : Nat) :
    alookup (aremove l k) k = none := by
  induction l with
  | nil => simp [aremove, alookup]
  | cons p rest ih =>
    by_cases h : p.1 = k
    · simpa [aremove, h] using ih
    · simp only [aremove, if_neg h, alookup]
      simpa [h] using ih

theorem alookup_aremove_other {β : Type} (l : List (Nat × β)) (k k' : Nat)
    (h : ¬ k = k') : alookup (aremove l k) k' = alookup l k' := by
  induction l with
  | nil => simp [aremove, alookup]
  | cons p rest ih =>
    by_cases hp : p.1 = k
    · have hpk : ¬ p.1 = k' := by rw [hp]; exact h
      simp only [aremove, if_pos hp, alookup]
      rw [if_neg hpk, ih]
    · simp only [aremove, if_neg hp, alookup]
      rw [ih]

theorem alookup_append_none {β : Type} (l1 l2 : List (Nat × β)) (k : Nat)
    (h : alookup l1 k = none) : alookup (l1 ++ l2) k = alookup l2 k := by
  induction l1 with
  | nil => simp [alookup]
  | cons p rest ih =>
    by_cases hp : p.1 = k
    · simp [alookup, hp] at h
    · simp only [alookup, if_neg hp] at h
      simp only [List.cons_append, alookup, if_neg hp]
      exact ih h

theorem alookup_append_some {β : Type} (l1 l2 : List (Nat × β)) (k : Nat) (v : β)
    (h : alookup l1 k = some v) : alookup (l1 ++ l2) k = some v := by
  induction l1 with
  | nil => simp [alookup] at h
  | cons p rest ih =>
    by_cases hp : p.1 = k
    · simp only [alookup, if_pos hp] at h
      simp only [List.cons_append, alookup, if_pos hp]
      exact h
    · simp only [alookup, if_neg hp] at h
      simp only [List.cons_append, alookup, if_neg hp]
      exact ih h

theorem alookup_aupdate_self {β : Type} (l : List (Nat × β)) (k : Nat) (v : β) :
    alookup (aupdate l k v) k = (alookup l k).map (fun _ => v) := by
  induction l with
  | nil => simp [aupdate, alookup]
  | cons p rest ih =>
    by_cases hp : p.1 = k
    · simp [aupdate, alookup, hp]
    · simp only [aupdate, if_neg hp, alookup]
      simpa [hp] using ih

theorem alookup_aupdate_other {β : Type} (l : List (Nat × β)) (k k' : Nat) (v : β)
    (h : ¬ k = k') : alookup (aupdate l k v) k' = alookup l k' := by
  induction l with
  | nil => simp [aupdate, alookup]
  | cons p rest ih =>
    by_cases hp : p.1 = k
    · have hpk : ¬ p.1 = k' := by rw [hp]; exact h
      simp only [aupdate, if_pos hp, alookup]
      rw [if_neg h, if_neg hpk, ih]
    · simp only [aupdate, if_neg hp, alookup]
      rw [ih]

/-! ### C6: bounded task results -/

theorem addTaskResult_eq {α : Type} (l : List α) (r : α) :
    addTaskResult l r =
      if l.length + 1 > 500 then (l ++ [r]).drop (l.length + 1 - 500)
      else l ++ [r] := by
  simp [addTaskResult, MAX_RESULTS_PER_TASK, List.length_append]

theorem foldl_addTaskResult {α : Type} (rs : List α) :
    List.foldl addTaskResult [] rs = rs.drop (rs.length - 500) := by
  induction rs using List.reverseRecOn with
  | nil => simp
  | append_singleton rs r ih =>
    rw [List.foldl_append, List.foldl_cons, List.foldl_nil, ih, addTaskResult_eq]
    have hlen : (rs.drop (rs.length - 500)).length = rs.length - (rs.length - 500) :=
      List.length_drop _ _
    by_cases h : rs.length ≤ 499
    · have h0 : rs.length - 500 = 0 := by omega
      have h1 : (rs ++ [r]).length - 500 = 0 := by
        simp only [List.length_append, List.length_singleton]; omega
      rw [if_neg (by omega), h0, List.drop_zero, h1, List.drop_zero]
    · have h500 : (rs.drop (rs.length - 500)).length = 500 := by omega
      rw [if_pos (by omega)]
      have hd1 : (rs.drop (rs.length - 500) ++ [r]).drop
          ((rs.drop (rs.length - 500)).length + 1 - 500) =
          (rs.drop (rs.length - 500)).drop 1 ++ [r] := by
        rw [h500]
        have : (500 : Nat) + 1 - 500 = 1 := by omega
        rw [this, List.drop_append_of_le_length (by omega)]
      rw [hd1, List.drop_drop]
      have h2 : (rs ++ [r]).length - 500 = 1 + (rs.length - 500) := by
        simp only [List.length_append, List.length_singleton]; omega
      have h3 : rs.length - 500 + 1 = 1 + (rs.length - 500) := by omega
      rw [h2, h3, List.drop_append_of_le_length (by omega)]

/-- C6: for every task and every sequence of `addTaskResult` calls from a
fresh task, the results list is exactly the 500 most recently added
results in order, and never exceeds 500 entries. -/
theorem task_results_bounded_to_recent_500 {α : Type} (rs : List α) :
    List.foldl addTaskResult [] rs = rs.drop (rs.length - 500) ∧
    (List.foldl addTaskResult [] rs).length ≤ 500 := by
  refine ⟨foldl_addTaskResult rs, ?_⟩
  rw [foldl_addTaskResult rs, List.length_drop]
  omega

/-! ### C8: cancelTask -/

/-- C8: `cancelTask` returns true exactly when a task exists for the
session, its status is running and a cancellation handle is set; in that
case the only mutation is signalling that task's handle, and in every
other case the registry is left untouched. -/
theorem cancelTask_spec (tm : TaskMap) (sessionId : Nat) :
    ((cancelTask tm sessionId).1 = true ↔
      ∃ t : STask, tm sessionId = some t ∧ t.status = .running ∧ t.abortController.isSome) ∧
    ((cancelTask tm sessionId).1 = false → (cancelTask tm sessionId).2 = tm) ∧
    (∀ t, tm sessionId = some t → (cancelTask tm sessionId).1 = true →
      (cancelTask tm sessionId).2 =
        fun s => if s = sessionId then some { t with abortController := some true } else tm s) ∧
    (∀ s, s ≠ sessionId → (cancelTask tm sessionId).2 s = tm s) := by
  refine ⟨?_, ?_, ?_, ?_⟩
  · constructor
    · intro h
      cases hm : tm sessionId with
      | none => simp [cancelTask, hm] at h
      | some t =>
        by_cases hc : t.status = .running ∧ t.abortController.isSome
        · exact ⟨t, rfl, hc.1, hc.2⟩
        · simp [cancelTask, hm, hc] at h
    · rintro ⟨t, hm, hs, ha⟩
      simp [cancelTask, hm, hs, ha]
  · intro h
    cases hm : tm sessionId with
    | none => simp [cancelTask, hm]
    | some t =>
      by_cases hc : t.status = .running ∧ t.abortController.isSome
      · simp [cancelTask, hm, hc] at h
      · simp [cancelTask, hm, hc]
  · intro t hm h
    by_cases hc : t.status = .running ∧ t.abortController.isSome
    · simp [cancelTask, hm, hc]
    · simp [cancelTask, hm, hc] at h
  · intro s hs
    cases hm : tm sessionId with
    | none => simp [cancelTask, hm]
    | some t =>
      by_cases hc : t.status = .running ∧ t.abortController.isSome
      · simp [cancelTask, hm, hc, hs]
      · simp [cancelTask, hm, hc]

/-- C8 witness: a concrete running task with a handle is cancelled, and a
session without a task reports false. -/
theorem cancelTask_spec_witness :
    (cancelTask (fun s => if s = 1 then some ⟨.running, 0, some false⟩ else none) 1).1 = true ∧
    (cancelTask (fun s => if s = 1 then some ⟨.running, 0, some false⟩ else none) 2).2 3 =
      (fun s => if s = 1 then some ⟨.running, 0, some false⟩ else none) 3 := by
  constructor
  · exact (cancelTask_spec (fun s => if s = 1 then some ⟨.running, 0, some false⟩ else none) 1).1.mpr
      ⟨⟨.running, 0, some false⟩, by simp, rfl, rfl⟩
  · exact (cancelTask_spec (fun s => if s = 1 then some ⟨.running, 0, some false⟩ else none) 2).2.2.2 3 (by decide)

/-! ### C10: addBookmark idempotence on commands -/

/-- C10: adding a bookmark whose command already appears in the target
list leaves that list unchanged; adding a command not yet present appends
exactly one new entry. -/
theorem addBookmark_command_idempotent (data : BookmarksData) (scope : Scope)
    (slug cmd : Nat) (cwd : Option Nat) (newId ts : Nat) :
    targetList (addBookmark data scope slug cmd cwd newId ts) scope slug =
      (if (targetList data scope slug).any (fun b => b.command == cmd)
       then targetList data scope slug
       else targetList data scope slug ++ [mkEntry newId cmd cwd ts]) := by
  cases scope with
  | global =>
    by_cases h : data.global.any (fun b => b.command == cmd)
    · simp [addBookmark, targetList, h]
    · simp [addBookmark, targetList, h]
  | project =>
    by_cases h : ((alookup data.projects slug).getD []).any (fun b => b.command == cmd)
    · simp [addBookmark, targetList, h, alookup_aset_self]
    · simp [addBookmark, targetList, h, alookup_aset_self]

/-! ### ClientRegistry (ws utilities: watchSession / unwatchSession /
unwatchAllSessions) -/

/-- `sessionWatchers`: sessionId → ordered set of connected clients
watching that session (a JS `Set` iterated in insertion order is a
duplicate-free list). -/
def SessionWatchers : Type := List (Nat × List Nat)

/-- `Set.add`: append if not already present. -/
def setAdd (l : List Nat) (x : Nat) : List Nat :=
  if x ∈ l then l else l ++ [x]

/-- One `send(client, {type: 'session_active_elsewhere', isActiveElsewhere})`
notification: target client and the `isActiveElsewhere` flag. -/
structure ShareNote where
  client : Nat
  isActiveElsewhere : Bool
deriving DecidableEq, Repr

/-- `watchSession(sessionId, ws)`: registers the client; if others were
already watching, notifies them (not the new client) that the session is
now shared.  Returns `hadOtherWatchers`, the registry afterwards, and the
notifications sent. -/
def watchSession (sw : SessionWatchers) (sessionId ws : Nat) :
    Bool × SessionWatchers × List ShareNote :=
  if sessionId = 0 ∨ ws = 0 then (false, sw, [])
  else
    let watchers := (alookup sw sessionId).getD []
    let hadOtherWatchers := watchers.length > 0
    let watchers' := setAdd watchers ws
    let sw' := aset sw sessionId watchers'
    let notes := if hadOtherWatchers then
        (watchers'.filter (fun c => c ≠ ws)).map (fun c => ShareNote.mk c true)
      else []
    (hadOtherWatchers, sw', notes)

/-- `unwatchSession(sessionId, ws)`: removes the client; if exactly one
watcher remains it is notified the session is no longer shared; if zero
remain the session entry is deleted. -/
def unwatchSession (sw : SessionWatchers) (sessionId ws : Nat) :
    SessionWatchers × List ShareNote :=
  if sessionId = 0 ∨ ws = 0 then (sw, [])
  else
    match alookup sw sessionId with
    | none => (sw, [])
    | some watchers =>
      let watchers' := watchers.filter (fun c => c ≠ ws)
      if watchers'.length = 0 then (aremove sw sessionId, [])
      else
        let notes := if watchers'.length = 1 then
            watchers'.map (fun c => ShareNote.mk c false)
          else []
        (aset sw sessionId watchers', notes)

/-- `unwatchAllSessions(ws)` (run on disconnect): applies `unwatchSession`
for every session whose watcher set contains the client, accumulating all
notifications. -/
def unwatchAllSessions (sw : SessionWatchers) (ws : Nat) :
    SessionWatchers × List ShareNote :=
  if ws = 0 then (sw, [])
  else
    let sessionsToCleanup := (sw.filter (fun p => ws ∈ p.2)).map (fun p => p.1)
    sessionsToCleanup.foldl
      (fun acc sid =>
        let r := unwatchSession acc.1 sid ws
        (r.1, acc.2 ++ r.2))
      (sw, [])

/-! ### ConnectionRouter (src/server/websocket.js) -/

/-- An inbound socket frame: either text that fails `JSON.parse`, or a
parsed message carrying a `type` tag. -/
inductive Frame
  | malformed
  | msg (msgType : Nat)
deriving DecidableEq, Repr

/-- The observable outcome of invoking a registered handler: it returns,
or it throws an error (its message modeled as a Nat). -/
inductive HandlerOutcome
  | ok
  | throws (errMsg : Nat)
deriving DecidableEq, Repr

/-- A reply frame sent back to the client by the router itself.  The
error code for a parse failure is a fixed message. -/
inductive Reply
  | errorReply (errMsg : Nat)
deriving DecidableEq, Repr

/-- The error message of a `JSON.parse` failure. -/
def parseErrMsg : Nat := 0

/-- Result of processing one inbound frame on a connection: replies the
router sends to that client, the global client set afterwards, and
whether the router closed the connection. -/
structure RouteResult where
  replies : List Reply
  clients : List Nat
  closed : Bool
deriving DecidableEq, Repr

/-- The `ws.on('message', ...)` handler of websocket.js: parse, look up a
handler by message type, invoke it; unknown types are logged and ignored;
parse or handler errors are caught and turned into a single error reply.
The client set is not touched and the connection is not closed on this
path. -/
def routeFrame (handlers : Nat → Option HandlerOutcome) (clients : List Nat)
    (frame : Frame) : RouteResult :=
  match frame with
  | .malformed => ⟨[.errorReply parseErrMsg], clients, false⟩
  | .msg t =>
    match handlers t with
    | none => ⟨[], clients, false⟩
    | some .ok => ⟨[], clients, false⟩
    | some (.throws e) => ⟨[.errorReply e], clients, false⟩

/-- The `ws.on('close', ...)` handler: the client is removed from the
global set and unregistered from all sessions (for contrast with
`routeFrame`, which never does this). -/
def routeClose (clients : List Nat) (sw : SessionWatchers) (ws : Nat) :
    List Nat × SessionWatchers × List ShareNote :=
  let r := unwatchAllSessions sw ws
  (clients.filter (fun c => c ≠ ws), r.1, r.2)

/-! ### C7: router error containment -/

/-- C7: per inbound frame, an unknown message type yields no reply; a
parse failure or a throwing handler yields exactly one error reply; and
in every case the client set is unchanged and the connection stays open. -/
theorem routeFrame_error_containment (handlers : Nat → Option HandlerOutcome)
    (clients : List Nat) (frame : Frame) :
    (routeFrame handlers clients frame).clients = clients ∧
    (routeFrame handlers clients frame).closed = false ∧
    (frame = .malformed →
      (routeFrame handlers clients frame).replies = [.errorReply parseErrMsg]) ∧
    (∀ t, frame = .msg t → handlers t = none →
      (routeFrame handlers clients frame).replies = []) ∧
    (∀ t, frame = .msg t → handlers t = some .ok →
      (routeFrame handlers clients frame).replies = []) ∧
    (∀ t e, frame = .msg t → handlers t = some (.throws e) →
      (routeFrame handlers clients frame).replies = [.errorReply e]) := by
  cases frame with
  | malformed => simp [routeFrame]
  | msg t =>
    cases hh : handlers t with
    | none =>
      refine ⟨by simp [routeFrame, hh], by simp [routeFrame, hh], by simp, ?_, ?_, ?_⟩
      · intro t' ht _
        cases ht
        simp [routeFrame, hh]
      · intro t' ht hsome
        cases ht
        rw [hh] at hsome
        cases hsome
      · intro t' e ht hsome
        cases ht
        rw [hh] at hsome
        cases hsome
    | some outcome =>
      cases outcome with
      | ok =>
        refine ⟨by simp [routeFrame, hh], by simp [routeFrame, hh], by simp, ?_, ?_, ?_⟩
        · intro t' ht hnone
          cases ht
          rw [hh] at hnone
          cases hnone
        · intro t' ht _
          cases ht
          simp [routeFrame, hh]
        · intro t' e ht hsome
          cases ht
          rw [hh] at hsome
          cases hsome
      | throws e0 =>
        refine ⟨by simp [routeFrame, hh], by simp [routeFrame, hh], by simp, ?_, ?_, ?_⟩
        · intro t' ht hnone
          cases ht
          rw [hh] at hnone
          cases hnone
        · intro t' ht hsome
          cases ht
          rw [hh] at hsome
          cases hsome
        · intro t' e ht hsome
          cases ht
          rw [hh] at hsome
          cases hsome
          simp [routeFrame, hh]

/-- C7 witness: concrete frames through a table with one handler that
throws error 9: a malformed frame and a throwing handler each produce one
error reply with the client set intact, and an unknown type none. -/
theorem routeFrame_error_containment_witness :
    ((routeFrame (fun t => if t = 1 then some (.throws 9) else none) [5] .malformed).replies
        = [.errorReply parseErrMsg] ∧
      (routeFrame (fun t => if t = 1 then some (.throws 9) else none) [5] .malformed).clients = [5]) ∧
    (routeFrame (fun t => if t = 1 then some (.throws 9) else none) [5] (.msg 2)).replies = [] ∧
    (routeFrame (fun t => if t = 1 then some (.throws 9) else none) [5] (.msg 1)).replies
        = [.errorReply 9] := by
  refine ⟨⟨?_, ?_⟩, ?_, ?_⟩
  · exact (routeFrame_error_containment (fun t => if t = 1 then some (.throws 9) else none) [5]
      .malformed).2.2.1 rfl
  · exact (routeFrame_error_containment (fun t => if t = 1 then some (.throws 9) else none) [5]
      .malformed).1
  · exact (routeFrame_error_containment (fun t => if t = 1 then some (.throws 9) else none) [5]
      (.msg 2)).2.2.2.1 2 rfl (by decide)
  · exact (routeFrame_error_containment (fun t => if t = 1 then some (.throws 9) else none) [5]
      (.msg 1)).2.2.2.2.2 1 9 rfl (by decide)

/-! ### C2: watcher accounting -/

/-- C2: starting from an empty registry, client A's `watchSession` returns
no-other-watchers and sends nothing; client B's returns true and notifies
only A that the session is shared; removing B (directly or via the
disconnect path) notifies the single remaining watcher A that the session
is no longer shared; removing the last watcher deletes the session
entry. -/
theorem watchSession_accounting (A B s : Nat)
    (hA : A ≠ 0) (hB : B ≠ 0) (hs : s ≠ 0) (hAB : A ≠ B) :
    watchSession [] s A = (false, [(s, [A])], []) ∧
    watchSession [(s, [A])] s B = (true, [(s, [A, B])], [⟨A, true⟩]) ∧
    unwatchSession [(s, [A, B])] s B = ([(s, [A])], [⟨A, false⟩]) ∧
    unwatchAllSessions [(s, [A, B])] B = ([(s, [A])], [⟨A, false⟩]) ∧
    unwatchSession [(s, [A])] s A = ([], []) ∧
    alookup ((unwatchSession [(s, [A])] s A).1) s = none := by
  have hBA : ¬ B = A := fun h => hAB h.symm
  have hAB' : ¬ A = B := hAB
  refine ⟨?_, ?_, ?_, ?_, ?_, ?_⟩
  · simp [watchSession, hs, hA, alookup, setAdd, aset]
  · simp [watchSession, hs, hB, alookup, setAdd, aset, hBA, hAB']
  · simp [unwatchSession, hs, hB, alookup, aset, hAB', hBA]
  · simp [unwatchAllSessions, unwatchSession, hs, hB, alookup, aset, aremove, hAB', hBA]
  · simp [unwatchSession, hs, hA, alookup, aset, aremove]
  · simp [unwatchSession, hs, hA, alookup, aset, aremove]

/-- C2 witness: the accounting scenario at concrete clients 1, 2 on
session 3. -/
theorem watchSession_accounting_witness :
    watchSession [] 3 1 = (false, [(3, [1])], []) ∧
    watchSession [(3, [1])] 3 2 = (true, [(3, [1, 2])], [⟨1, true⟩]) ∧
    unwatchSession [(3, [1, 2])] 3 2 = ([(3, [1])], [⟨1, false⟩]) ∧
    unwatchAllSessions [(3, [1, 2])] 2 = ([(3, [1])], [⟨1, false⟩]) ∧
    unwatchSession [(3, [1])] 3 1 = ([], []) ∧
    alookup ((unwatchSession [(3, [1])] 3 1).1) 3 = none :=
  watchSession_accounting 1 2 3 (by decide) (by decide) (by decide) (by decide)

/-! ### terminal:watch:update handler (terminal watch event handler) -/

/-- The error replies the watch-update handler can send. -/
inductive TermErr
  | requiredFields
  | intervalTooSmall
deriving DecidableEq, Repr

/-- Result of one `terminal:watch:update` message: the error reply if
any, the persisted bookmarks afterwards, the `startWatch` call performed
(project slug and tagged bookmark), and the `stopWatch` call performed. -/
structure WUpdResult where
  reply : Option TermErr
  data : BookmarksData
  started : Option (Nat × Bookmark)
  stopped : Option Nat
deriving DecidableEq, Repr

/-- `const resolvedScope = scope || 'project'`. -/
def resolveScope (scope : Option Scope) : Scope := scope.getD .project

/-- `MIN_INTERVAL_S` of the handler. -/
def MIN_INTERVAL_S : ℚ := 1

/-- `MAX_INTERVAL_S` of the handler. -/
def MAX_INTERVAL_S : ℚ := 3600

/-- `watchUpdateHandler(ws, message)`: validates required fields, then —
when enabling — rejects a non-finite or too-small interval before
anything is persisted, clamps the interval to `MAX_INTERVAL_S`, persists
the watch config, and starts (or stops) the watch.  `watch.interval` is
`Number(watch.interval)`: `none` models a non-finite result. -/
def watchUpdateHandler (data : BookmarksData) (bookmarkId projectSlug : Nat)
    (scope : Option Scope) (watch : Option WatchCfg) : WUpdResult :=
  if bookmarkId = 0 ∨ projectSlug = 0 then
    ⟨some .requiredFields, data, none, none⟩
  else
    let validated : Option (Option WatchCfg) :=
      match watch with
      | some w =>
        if w.enabled then
          match w.interval with
          | none => none
          | some q =>
            if q < MIN_INTERVAL_S then none
            else some (some { w with interval := some (min q MAX_INTERVAL_S) })
        else some (some w)
      | none => some none
    match validated with
    | none => ⟨some .intervalTooSmall, data, none, none⟩
    | some watch' =>
      let rscope := resolveScope scope
      let data' := updateBookmarkWatch data rscope projectSlug bookmarkId watch'
      if (watch'.map WatchCfg.enabled).getD false then
        let view := getBookmarksView data' projectSlug
        match (view.global ++ view.project).find? (fun b => b.id == bookmarkId) with
        | some b => ⟨none, data', some (projectSlug, { b with scopeTag := some rscope }), none⟩
        | none => ⟨none, data', none, none⟩
      else ⟨none, data', none, some bookmarkId⟩

theorem find?_updateFirst (l : List Bookmark) (bid : Nat) (cfg : Option WatchCfg)
    (b : Bookmark) (h : l.find? (fun x => x.id == bid) = some b) :
    (updateFirst l bid cfg).find? (fun x => x.id == bid) =
      some { b with watch := cfg } := by
  induction l with
  | nil => simp [List.find?] at h
  | cons hd rest ih =>
    by_cases hhd : hd.id = bid
    · rw [List.find?_cons_of_pos _ (by simp [hhd])] at h
      cases h
      simp only [updateFirst, if_pos hhd]
      rw [List.find?_cons_of_pos _ (by simp [hhd])]
    · rw [List.find?_cons_of_neg _ (by simp [hhd])] at h
      simp only [updateFirst, if_neg hhd]
      rw [List.find?_cons_of_neg _ (by simp [hhd])]
      exact ih h

theorem find?_append_of_left {α : Type} (p : α → Bool) (l1 l2 : List α) (v : α)
    (h : l1.find? p = some v) : (l1 ++ l2).find? p = some v := by
  induction l1 with
  | nil => simp [List.find?] at h
  | cons hd rest ih =>
    cases hp : p hd with
    | true =>
      rw [List.find?_cons_of_pos _ hp] at h
      rw [List.cons_append, List.find?_cons_of_pos _ hp]
      exact h
    | false =>
      rw [List.find?_cons_of_neg _ (by simp [hp])] at h
      rw [List.cons_append, List.find?_cons_of_neg _ (by simp [hp])]
      exact ih h

theorem find?_append_isSome_right {α : Type} (p : α → Bool) (l1 l2 : List α)
    (h : (l2.find? p).isSome = true) : ((l1 ++ l2).find? p).isSome = true := by
  induction l1 with
  | nil => simpa using h
  | cons hd rest ih =>
    cases hp : p hd with
    | true => rw [List.cons_append, List.find?_cons_of_pos _ hp]; rfl
    | false => rw [List.cons_append, List.find?_cons_of_neg _ (by simp [hp])]; exact ih


/-! ### C3: interval validation and clamping -/

/-- C3: for an enabling watch update, a non-finite or too-small interval
is rejected synchronously with a descriptive error reply, leaving the
persisted bookmarks untouched and starting nothing; an interval above
3600 is silently clamped to 3600 before the bookmark is persisted, and
the watch is started. -/
theorem watchUpdate_interval_validation (data : BookmarksData)
    (bid slug : Nat) (scope : Option Scope) (w : WatchCfg)
    (hbid : bid ≠ 0) (hslug : slug ≠ 0) (hen : w.enabled = true) :
    ((w.interval = none ∨ ∃ q, w.interval = some q ∧ q < 1) →
      watchUpdateHandler data bid slug scope (some w) =
        ⟨some .intervalTooSmall, data, none, none⟩) ∧
    (∀ (q : ℚ) (b : Bookmark), w.interval = some q → 1 ≤ q → 3600 < q →
      (targetList data (resolveScope scope) slug).find? (fun x => x.id == bid) = some b →
      (watchUpdateHandler data bid slug scope (some w)).reply = none ∧
      (targetList (watchUpdateHandler data bid slug scope (some w)).data
          (resolveScope scope) slug).find? (fun x => x.id == bid) =
        some { b with watch := some { w with interval := some (3600 : ℚ) } } ∧
      ((watchUpdateHandler data bid slug scope (some w)).started).isSome = true) := by
  have hguard : ¬ (bid = 0 ∨ slug = 0) := by simp [hbid, hslug]
  constructor
  · intro hrej
    rcases hrej with hnone | ⟨q, hq, hlt⟩
    · simp [watchUpdateHandler, hguard, hen, hnone]
    · simp [watchUpdateHandler, hguard, hen, hq, MIN_INTERVAL_S, hlt]
  · intro q b hq h1q h36 hfind
    have hnlt : ¬ q < MIN_INTERVAL_S := by
      simp only [MIN_INTERVAL_S, not_lt]
      exact h1q
    have hmin : min q MAX_INTERVAL_S = (3600 : ℚ) := by
      simp only [MAX_INTERVAL_S]
      exact min_eq_right (le_of_lt h36)
    have hH : watchUpdateHandler data bid slug scope (some w) =
        match ((getBookmarksView (updateBookmarkWatch data (resolveScope scope) slug bid
              (some { w with interval := some (3600 : ℚ) })) slug).global ++
            (getBookmarksView (updateBookmarkWatch data (resolveScope scope) slug bid
              (some { w with interval := some (3600 : ℚ) })) slug).project).find?
            (fun x => x.id == bid) with
        | some bb =>
          ⟨none, updateBookmarkWatch data (resolveScope scope) slug bid
              (some { w with interval := some (3600 : ℚ) }),
            some (slug, { bb with scopeTag := some (resolveScope scope) }), none⟩
        | none =>
          ⟨none, updateBookmarkWatch data (resolveScope scope) slug bid
              (some { w with interval := some (3600 : ℚ) }), none, none⟩ := by
      simp [watchUpdateHandler, hguard, hen, hq, hnlt, hmin]
    have hfind' : (targetList
        (updateBookmarkWatch data (resolveScope scope) slug bid
          (some { w with interval := some (3600 : ℚ) }))
        (resolveScope scope) slug).find? (fun x => x.id == bid) =
        some { b with watch := some { w with interval := some (3600 : ℚ) } } := by
      cases hsc : resolveScope scope with
      | global =>
        rw [hsc] at hfind
        simpa [updateBookmarkWatch, targetList] using
          find?_updateFirst data.global bid _ b (by simpa [targetList] using hfind)
      | project =>
        rw [hsc] at hfind
        simp only [updateBookmarkWatch, targetList, alookup_aset_self, Option.getD_some]
        exact find?_updateFirst _ bid _ b (by simpa [targetList] using hfind)
    have happ : (((getBookmarksView (updateBookmarkWatch data (resolveScope scope) slug bid
          (some { w with interval := some (3600 : ℚ) })) slug).global ++
        (getBookmarksView (updateBookmarkWatch data (resolveScope scope) slug bid
          (some { w with interval := some (3600 : ℚ) })) slug).project).find?
          (fun x => x.id == bid)).isSome = true := by
      cases hsc : resolveScope scope with
      | global =>
        rw [hsc] at hfind'
        rw [find?_append_of_left _ _ _ _ (by
          simpa [getBookmarksView, targetList] using hfind')]
        rfl
      | project =>
        rw [hsc] at hfind'
        apply find?_append_isSome_right
        have hproj : (getBookmarksView (updateBookmarkWatch data Scope.project slug bid
            (some { w with interval := some (3600 : ℚ) })) slug).project =
            targetList (updateBookmarkWatch data Scope.project slug bid
              (some { w with interval := some (3600 : ℚ) })) .project slug := by
          simp [getBookmarksView, targetList]
        rw [hproj, hfind']
        rfl
    obtain ⟨bb, hbb⟩ := Option.isSome_iff_exists.mp happ
    rw [hH, hbb]
    exact ⟨rfl, hfind', rfl⟩

/-- The sample bookmark store for the C3 witness: project 1 holds one
bookmark with id 2. -/
def sampleData : BookmarksData :=
  { global := [],
    projects :=
      [(1,
        [{ id := 2, command := 7, cwd := none, createdAt := 0, watch := none,
           scopeTag := none }])] }

/-- C3 witness: interval 1/10 is rejected with the bookmarks untouched;
interval 999999 is clamped to 3600, persisted, and the watch started. -/
theorem watchUpdate_interval_validation_witness :
    watchUpdateHandler sampleData 2 1 none
        (some { enabled := true, interval := some (1/10 : ℚ), mode := none, timeout := none }) =
      ⟨some .intervalTooSmall, sampleData, none, none⟩ ∧
    ((watchUpdateHandler sampleData 2 1 none
        (some { enabled := true, interval := some (999999 : ℚ), mode := none, timeout := none })).reply = none ∧
      (targetList (watchUpdateHandler sampleData 2 1 none
          (some { enabled := true, interval := some (999999 : ℚ), mode := none, timeout := none })).data
          (resolveScope none) 1).find? (fun x => x.id == 2) =
        some { id := 2, command := 7, cwd := none, createdAt := 0,
               watch := some { enabled := true, interval := some (3600 : ℚ), mode := none, timeout := none },
               scopeTag := none } ∧
      ((watchUpdateHandler sampleData 2 1 none
          (some { enabled := true, interval := some (999999 : ℚ), mode := none, timeout := none })).started).isSome = true) := by
  constructor
  · exact (watchUpdate_interval_validation sampleData 2 1 none
      { enabled := true, interval := some (1/10 : ℚ), mode := none, timeout := none }
      (by decide) (by decide) rfl).1 (Or.inr ⟨1/10, rfl, by norm_num⟩)
  · exact (watchUpdate_interval_validation sampleData 2 1 none
      { enabled := true, interval := some (999999 : ℚ), mode := none, timeout := none }
      (by decide) (by decide) rfl).2 999999
      { id := 2, command := 7, cwd := none, createdAt := 0, watch := none, scopeTag := none }
      rfl (by norm_num) (by norm_num) (by rfl)

/-! ### WatchManager (src/server/lib/watchManager.js)

The watch scheduler is event-driven: timers and process exits invoke
callbacks on a shared state.  It is embedded as a step function over an
explicit state, with one event per asynchronous callback.  The process
table it drives (`processManager.js`) is not part of the sources; its
record-level behaviour is modelled from the spec (§4.1 ProcessTable):
`spawn` adds a fresh `running` record, `kill` marks a running record
`killed`, `remove` deletes the record, `getProcess` looks it up, and the
OS exit event of a tracked process fires at most once. -/

/-- Process record status (the statuses the watch flow distinguishes). -/
inductive PStatus
  | running
  | completed
  | killed
deriving DecidableEq, Repr

/-- Modelled from the spec: a ProcessTable record, restricted to the
fields the watch scheduler reads (`processManager.js` is not among the
sources).  `exitEmitted` tracks that the OS exit event fires at most once
per spawned process. -/
structure ProcRec where
  id : Nat
  slug : Nat
  isWatch : Bool
  watchBookmarkId : Option Nat
  status : PStatus
  exitEmitted : Bool
deriving DecidableEq, Repr

/-- Modelled from the spec: `processManager.getProcess(slug, id)`. -/
def tableGet (t : List ProcRec) (slug pid : Nat) : Option ProcRec :=
  t.find? (fun r => r.slug == slug && r.id == pid)

/-- Modelled from the spec: `processManager.kill(slug, id, 'SIGKILL')` —
marks a running record killed; idempotent if already exited. -/
def tableKill : List ProcRec → Nat → Nat → List ProcRec
  | [], _, _ => []
  | r :: rest, slug, pid =>
    (if r.slug = slug ∧ r.id = pid ∧ r.status = .running
     then { r with status := .killed } else r) :: tableKill rest slug pid

/-- Modelled from the spec: `processManager.remove(slug, id)`. -/
def tableRemove : List ProcRec → Nat → Nat → List ProcRec
  | [], _, _ => []
  | r :: rest, slug, pid =>
    if r.slug = slug ∧ r.id = pid then tableRemove rest slug pid
    else r :: tableRemove rest slug pid

/-- One WatchState of watchManager.js: `{ timer, tickTimeoutTimer,
projectSlug, bookmark, currentProcessId, currentExitListener, stopped }`.
Timers hold the armed delay in milliseconds (`none` = not armed); the
exit listener is a flag (the listener closure is recovered from the
state it captures). -/
structure WatchState where
  timer : Option ℚ
  tickTimeoutTimer : Option ℚ
  projectSlug : Nat
  bookmark : Bookmark
  currentProcessId : Option Nat
  currentExitListener : Bool
  stopped : Bool
deriving DecidableEq, Repr

/-- The whole scheduler state: the `watches` map, the process table it
drives, and the spawn counter producing fresh process ids. -/
structure MState where
  watches : List (Nat × WatchState)
  table : List ProcRec
  nextId : Nat
deriving DecidableEq, Repr

/-- The reschedule delay of the exit listener:
`Math.max(1, state.bookmark.watch?.interval ?? 10) * 1000`. -/
def rescheduleDelayMs (b : Bookmark) : ℚ :=
  max 1 ((b.watch.bind WatchCfg.interval).getD 10) * 1000

/-- `DEFAULT_TICK_TIMEOUT_MS` of watchManager.js. -/
def DEFAULT_TICK_TIMEOUT_MS : ℚ := 30000

/-- The per-tick timeout:
`(bookmark.watch?.timeout ?? 0) > 0 ? bookmark.watch.timeout * 1000 :
DEFAULT_TICK_TIMEOUT_MS`. -/
def tickTimeoutMs (b : Bookmark) : ℚ :=
  if 0 < (b.watch.bind WatchCfg.timeout).getD 0
  then ((b.watch.bind WatchCfg.timeout).getD 0) * 1000
  else DEFAULT_TICK_TIMEOUT_MS

/-- `WatchManager._runTick(projectSlug, bookmark, state)`: kill and
deregister the previous process if still tracked (its exit listener is
detached first), spawn a fresh tagged record, arm the per-tick timeout
and attach the exit listener.  (The stream handlers and broadcasts do not
change scheduler state.) -/
def runTick (s : MState) (bid : Nat) : MState :=
  match alookup s.watches bid with
  | none => s
  | some st =>
    if st.stopped then s
    else
      let cleaned :=
        match st.currentProcessId with
        | none => s.table
        | some pid =>
          let killed :=
            if (tableGet s.table st.projectSlug pid).map ProcRec.status = some .running
            then tableKill s.table st.projectSlug pid
            else s.table
          tableRemove killed st.projectSlug pid
      let newRec : ProcRec :=
        { id := s.nextId, slug := st.projectSlug, isWatch := true,
          watchBookmarkId := some st.bookmark.id, status := .running,
          exitEmitted := false }
      let st' : WatchState :=
        { st with
          currentProcessId := some s.nextId,
          currentExitListener := true,
          tickTimeoutTimer := some (tickTimeoutMs st.bookmark) }
      { watches := aupdate s.watches bid st',
        table := cleaned ++ [newRec],
        nextId := s.nextId + 1 }

/-- `WatchManager.stopWatch(bookmarkId)`: no-op when no watch is active;
otherwise sets `stopped`, cancels both timers, detaches the exit
listener, force-kills the current process and deletes the state.  (The
flag/timer mutations are on the object being deleted; the net state
effect is the kill plus the map removal.) -/
def stopWatch (s : MState) (bid : Nat) : MState :=
  match alookup s.watches bid with
  | none => s
  | some w =>
    { watches := aremove s.watches bid,
      table :=
        match w.currentProcessId with
        | some pid => tableKill s.table w.projectSlug pid
        | none => s.table,
      nextId := s.nextId }

/-- `WatchManager.startWatch(projectSlug, bookmark)`: stop any existing
watch for the id, register a fresh state, and run the first tick
immediately. -/
def startWatch (s : MState) (slug : Nat) (b : Bookmark) : MState :=
  let s1 := stopWatch s b.id
  let st : WatchState :=
    { timer := none, tickTimeoutTimer := none, projectSlug := slug,
      bookmark := b, currentProcessId := none, currentExitListener := false,
      stopped := false }
  runTick { watches := s1.watches ++ [(b.id, st)], table := s1.table,
            nextId := s1.nextId } b.id

/-- `b.watch?.enabled` truthiness. -/
def watchEnabled (b : Bookmark) : Bool := (b.watch.map WatchCfg.enabled).getD false

/-- Inner loop of `loadFromBookmarks`: resume each bookmark of one
project whose persisted `watch.enabled` is truthy. -/
def loadProj (s : MState) (slug : Nat) : List Bookmark → MState
  | [] => s
  | b :: rest =>
    loadProj (if watchEnabled b then startWatch s slug b else s) slug rest

/-- Outer loop of `loadFromBookmarks` over `allBookmarks.projects`. -/
def loadProjects (s : MState) : List (Nat × List Bookmark) → MState
  | [] => s
  | p :: rest => loadProjects (loadProj s p.1 p.2) rest

/-- `WatchManager.loadFromBookmarks(allBookmarks)` (boot-time): iterates
only `allBookmarks.projects`; the global list is never consulted. -/
def loadFromBookmarks (s : MState) (allB : BookmarksData) : MState :=
  loadProjects s allB.projects

/-- The scheduled next-tick timer firing: the closure clears
`state.timer` and calls `_runTick`. -/
def tickFire (s : MState) (bid : Nat) : MState :=
  match alookup s.watches bid with
  | none => s
  | some st =>
    match st.timer with
    | none => s
    | some _ =>
      runTick { s with watches := aupdate s.watches bid { st with timer := none } } bid

/-- The per-tick timeout firing: clears `state.tickTimeoutTimer` and
force-kills the tick's process if it is still running. -/
def timeoutFire (s : MState) (bid : Nat) : MState :=
  match alookup s.watches bid with
  | none => s
  | some st =>
    match st.tickTimeoutTimer with
    | none => s
    | some _ =>
      { s with
        watches := aupdate s.watches bid { st with tickTimeoutTimer := none },
        table :=
          match st.currentProcessId with
          | some pid =>
            if (tableGet s.table st.projectSlug pid).map ProcRec.status = some .running
            then tableKill s.table st.projectSlug pid
            else s.table
          | none => s.table }

/-- The watch (if any) whose attached exit listener belongs to process
`pid`. -/
def findListener (ws : List (Nat × WatchState)) (pid : Nat) : Option (Nat × WatchState) :=
  ws.find? (fun p => p.2.currentExitListener && p.2.currentProcessId == some pid)

/-- Modelled from the spec: the table-side effect of the exit event on
record `pid` — the status reaches a terminal value (`completed` for a
natural exit; a killed record stays `killed`) and the event is
consumed. -/
def exitMark (pid : Nat) (r : ProcRec) : ProcRec :=
  if r.id = pid then
    { r with
      exitEmitted := true,
      status := if r.status = .running then .completed else r.status }
  else r

/-- The OS exit event of tracked process `pid`: the record's status
reaches a terminal value and the event is consumed; if a watch's exit
listener is attached to the process, the listener runs — clear the tick
timeout, drop the listener reference, and (unless the watch was stopped)
arm the next-tick timer with the configured interval. -/
def exitFire (s : MState) (pid : Nat) : MState :=
  match s.table.find? (fun r => r.id == pid && !r.exitEmitted) with
  | none => s
  | some _ =>
    let t := s.table.map (exitMark pid)
    match findListener s.watches pid with
    | none => { s with table := t }
    | some (bid, st) =>
      let st' : WatchState :=
        if st.stopped then
          { st with tickTimeoutTimer := none, currentExitListener := false }
        else
          { st with
            tickTimeoutTimer := none, currentExitListener := false,
            timer := some (rescheduleDelayMs st.bookmark) }
      { s with table := t, watches := aupdate s.watches bid st' }

/-- The asynchronous events driving the scheduler: the public operations
of watchManager.js plus the three callback sources. -/
inductive WEvent
  | startW (slug : Nat) (b : Bookmark)
  | stopW (bid : Nat)
  | load (allB : BookmarksData)
  | tick (bid : Nat)
  | timeout (bid : Nat)
  | exited (pid : Nat)

/-- One event step. -/
def wstep (s : MState) : WEvent → MState
  | .startW slug b => startWatch s slug b
  | .stopW bid => stopWatch s bid
  | .load allB => loadFromBookmarks s allB
  | .tick bid => tickFire s bid
  | .timeout bid => timeoutFire s bid
  | .exited pid => exitFire s pid

/-- The boot state: no watches, empty table. -/
def initState : MState := { watches := [], table := [], nextId := 0 }

/-- Run a sequence of events from a state. -/
def wrun (s : MState) (evs : List WEvent) : MState := evs.foldl wstep s

/-- The number of `running` process records tagged with a bookmark id —
the "live ProcessRecords" of the no-tick-overlap property. -/
def runningCount (s : MState) (bid : Nat) : Nat :=
  (s.table.filter (fun r => r.watchBookmarkId == some bid && r.status == PStatus.running)).length


/-! ### Table and map lemmas for the scheduler invariant -/

theorem alookup_mem {β : Type} {l : List (Nat × β)} {k : Nat} {v : β}
    (h : alookup l k = some v) : (k, v) ∈ l := by
  induction l with
  | nil => simp [alookup] at h
  | cons p rest ih =>
    obtain ⟨p1, p2⟩ := p
    by_cases hp : p1 = k
    · subst hp
      simp only [alookup, if_pos rfl] at h
      injection h with h2
      subst h2
      exact List.mem_cons_self _ _
    · simp only [alookup, if_neg hp] at h
      exact List.mem_cons_of_mem _ (ih h)

theorem mem_aremove {β : Type} {l : List (Nat × β)} {k : Nat} {p : Nat × β}
    (h : p ∈ aremove l k) : p ∈ l := by
  induction l with
  | nil => simp [aremove] at h
  | cons q rest ih =>
    by_cases hq : q.1 = k
    · simp only [aremove, if_pos hq] at h
      exact List.mem_cons_of_mem _ (ih h)
    · simp only [aremove, if_neg hq] at h
      rcases List.mem_cons.mp h with h1 | h2
      · exact h1 ▸ List.mem_cons_self _ _
      · exact List.mem_cons_of_mem _ (ih h2)

theorem mem_aupdate {β : Type} {l : List (Nat × β)} {k : Nat} {v : β} {p : Nat × β}
    (h : p ∈ aupdate l k v) : p ∈ l ∨ p = (k, v) := by
  induction l with
  | nil => simp [aupdate] at h
  | cons q rest ih =>
    simp only [aupdate] at h
    rcases List.mem_cons.mp h with h1 | h2
    · by_cases hq : q.1 = k
      · right
        rw [h1, if_pos hq]
      · left
        rw [h1, if_neg hq]
        exact List.mem_cons_self _ _
    · rcases ih h2 with h3 | h4
      · exact Or.inl (List.mem_cons_of_mem _ h3)
      · exact Or.inr h4

theorem tableKill_map_id (t : List ProcRec) (slug pid : Nat) :
    (tableKill t slug pid).map ProcRec.id = t.map ProcRec.id := by
  induction t with
  | nil => rfl
  | cons r rest ih =>
    simp only [tableKill, List.map_cons, ih]
    by_cases hc : r.slug = slug ∧ r.id = pid ∧ r.status = .running
    · simp [hc]
    · simp [hc]

theorem mem_tableKill_id {t : List ProcRec} {slug pid : Nat} {r : ProcRec}
    (h : r ∈ tableKill t slug pid) : ∃ r0 ∈ t, r.id = r0.id ∧ r.slug = r0.slug := by
  induction t with
  | nil => simp [tableKill] at h
  | cons q rest ih =>
    simp only [tableKill] at h
    rcases List.mem_cons.mp h with h1 | h2
    · refine ⟨q, List.mem_cons_self _ _, ?_⟩
      by_cases hc : q.slug = slug ∧ q.id = pid ∧ q.status = .running
      · rw [h1, if_pos hc]
        exact ⟨rfl, rfl⟩
      · rw [h1, if_neg hc]
        exact ⟨rfl, rfl⟩
    · rcases ih h2 with ⟨r0, hr0, hid⟩
      exact ⟨r0, List.mem_cons_of_mem _ hr0, hid⟩

theorem mem_tableKill_running {t : List ProcRec} {slug pid : Nat} {r : ProcRec}
    (h : r ∈ tableKill t slug pid) (hr : r.status = .running) :
    r ∈ t ∧ ¬ (r.slug = slug ∧ r.id = pid) := by
  induction t with
  | nil => simp [tableKill] at h
  | cons q rest ih =>
    simp only [tableKill] at h
    rcases List.mem_cons.mp h with h1 | h2
    · by_cases hc : q.slug = slug ∧ q.id = pid ∧ q.status = .running
      · rw [if_pos hc] at h1
        rw [h1] at hr
        simp at hr
      · rw [if_neg hc] at h1
        subst h1
        refine ⟨List.mem_cons_self _ _, fun hcon => hc ⟨hcon.1, hcon.2, hr⟩⟩
    · rcases ih h2 with ⟨hm, hnc⟩
      exact ⟨List.mem_cons_of_mem _ hm, hnc⟩

theorem tableRemove_sublist (t : List ProcRec) (slug pid : Nat) :
    (tableRemove t slug pid).Sublist t := by
  induction t with
  | nil => simp [tableRemove]
  | cons q rest ih =>
    simp only [tableRemove]
    by_cases hc : q.slug = slug ∧ q.id = pid
    · rw [if_pos hc]
      exact ih.cons _
    · rw [if_neg hc]
      exact ih.cons₂ _

theorem mem_tableRemove {t : List ProcRec} {slug pid : Nat} {r : ProcRec}
    (h : r ∈ tableRemove t slug pid) : r ∈ t ∧ ¬ (r.slug = slug ∧ r.id = pid) := by
  induction t with
  | nil => simp [tableRemove] at h
  | cons q rest ih =>
    simp only [tableRemove] at h
    by_cases hc : q.slug = slug ∧ q.id = pid
    · rw [if_pos hc] at h
      rcases ih h with ⟨hm, hnc⟩
      exact ⟨List.mem_cons_of_mem _ hm, hnc⟩
    · rw [if_neg hc] at h
      rcases List.mem_cons.mp h with h1 | h2
      · subst h1
        exact ⟨List.mem_cons_self _ _, hc⟩
      · rcases ih h2 with ⟨hm, hnc⟩
        exact ⟨List.mem_cons_of_mem _ hm, hnc⟩

/-! ### The scheduler invariant -/

/-- Reachable-state invariant of the watch scheduler: table ids are
distinct and below the spawn counter; every map entry is keyed by its
bookmark's id; and every `running` watch-tagged record is the current
process of the (unique) active WatchState for its bookmark id. -/
structure WInv (s : MState) : Prop where
  nodup : (s.table.map ProcRec.id).Nodup
  bound : ∀ r ∈ s.table, r.id < s.nextId
  keyeq : ∀ p ∈ s.watches, p.2.bookmark.id = p.1
  tag : ∀ r ∈ s.table, r.status = .running → ∀ b, r.watchBookmarkId = some b →
    ∃ st, alookup s.watches b = some st ∧ st.currentProcessId = some r.id ∧
      st.projectSlug = r.slug

theorem WInv_mk_runTick (s : MState) (bid : Nat) (st : WatchState)
    (cleaned : List ProcRec) (h : WInv s) (hal : alookup s.watches bid = some st)
    (hmemid : ∀ r ∈ cleaned, ∃ r0 ∈ s.table, r.id = r0.id)
    (hnodup : (cleaned.map ProcRec.id).Nodup)
    (hrun : ∀ r ∈ cleaned, r.status = .running →
      r ∈ s.table ∧ ¬ (st.currentProcessId = some r.id ∧ st.projectSlug = r.slug)) :
    WInv { watches := aupdate s.watches bid
            { st with
              currentProcessId := some s.nextId, currentExitListener := true,
              tickTimeoutTimer := some (tickTimeoutMs st.bookmark) },
           table := cleaned ++
            [{ id := s.nextId, slug := st.projectSlug, isWatch := true,
               watchBookmarkId := some st.bookmark.id, status := .running,
               exitEmitted := false }],
           nextId := s.nextId + 1 } := by
  have hbid : st.bookmark.id = bid := h.keyeq _ (alookup_mem hal)
  refine ⟨?_, ?_, ?_, ?_⟩
  · rw [List.map_append]
    rw [List.nodup_append]
    refine ⟨hnodup, List.nodup_singleton _, ?_⟩
    intro a ha hb
    simp only [List.map_cons, List.map_nil, List.mem_singleton] at hb
    rcases List.mem_map.mp ha with ⟨r, hr, hra⟩
    rcases hmemid r hr with ⟨r0, hr0, hid⟩
    have := h.bound r0 hr0
    omega
  · intro r hr
    show r.id < s.nextId + 1
    rcases List.mem_append.mp hr with hc | hn
    · rcases hmemid r hc with ⟨r0, hr0, hid⟩
      have := h.bound r0 hr0
      omega
    · simp only [List.mem_singleton] at hn
      rw [hn]
      exact Nat.lt_succ_self _
  · intro p hp
    rcases mem_aupdate hp with hmem | heq
    · exact h.keyeq _ hmem
    · rw [heq]
      exact hbid
  · intro r hr hrun2 b hb
    rcases List.mem_append.mp hr with hc | hn
    · rcases hrun r hc hrun2 with ⟨hmem, hnc⟩
      rcases h.tag r hmem hrun2 b hb with ⟨st0, hst0, hcp, hslug⟩
      by_cases hbb : b = bid
      · subst hbb
        rw [hal] at hst0
        injection hst0 with hst0
        subst hst0
        exact absurd ⟨hcp, hslug⟩ hnc
      · refine ⟨st0, ?_, hcp, hslug⟩
        rw [alookup_aupdate_other _ _ _ _ (fun hh => hbb hh.symm)]
        exact hst0
    · simp only [List.mem_singleton] at hn
      subst hn
      simp only at hb
      have hbb : b = bid := by
        rw [← hbid]
        injection hb with hb2
        exact hb2.symm
      subst hbb
      refine ⟨{ st with
                currentProcessId := some s.nextId, currentExitListener := true,
                tickTimeoutTimer := some (tickTimeoutMs st.bookmark) }, ?_, rfl, rfl⟩
      rw [alookup_aupdate_self, hal]
      rfl

theorem WInv_runTick {s : MState} (bid : Nat) (h : WInv s) : WInv (runTick s bid) := by
  cases hal : alookup s.watches bid with
  | none => simpa [runTick, hal] using h
  | some st =>
    by_cases hstop : st.stopped = true
    · simpa [runTick, hal, hstop] using h
    · cases hcp : st.currentProcessId with
      | none =>
        simp only [runTick, hal]
        rw [if_neg hstop]
        simp only [hcp]
        apply WInv_mk_runTick s bid st s.table h hal
        · intro r hr
          exact ⟨r, hr, rfl⟩
        · exact h.nodup
        · intro r hr hrun2
          refine ⟨hr, ?_⟩
          rintro ⟨h1, _⟩
          rw [hcp] at h1
          cases h1
      | some pid =>
        by_cases hk : (tableGet s.table st.projectSlug pid).map ProcRec.status =
            some PStatus.running
        · simp only [runTick, hal]
          rw [if_neg hstop]
          simp only [hcp, hk, if_true]
          apply WInv_mk_runTick s bid st _ h hal
          · intro r hr
            rcases mem_tableRemove hr with ⟨hkmem, _⟩
            rcases mem_tableKill_id hkmem with ⟨r0, hr0, hid, _⟩
            exact ⟨r0, hr0, hid⟩
          · apply List.Nodup.sublist ((tableRemove_sublist _ _ _).map ProcRec.id)
            rw [tableKill_map_id]
            exact h.nodup
          · intro r hr hrun2
            rcases mem_tableRemove hr with ⟨hkmem, hnc⟩
            rcases mem_tableKill_running hkmem hrun2 with ⟨hmem, _⟩
            refine ⟨hmem, ?_⟩
            rintro ⟨h1, h2⟩
            rw [hcp] at h1
            injection h1 with h1
            exact hnc ⟨h2.symm, h1.symm⟩
        · simp only [runTick, hal]
          rw [if_neg hstop]
          simp only [hcp, hk, if_false]
          apply WInv_mk_runTick s bid st _ h hal
          · intro r hr
            rcases mem_tableRemove hr with ⟨hm, _⟩
            exact ⟨r, hm, rfl⟩
          · apply List.Nodup.sublist ((tableRemove_sublist _ _ _).map ProcRec.id)
            exact h.nodup
          · intro r hr hrun2
            rcases mem_tableRemove hr with ⟨hm, hnc⟩
            refine ⟨hm, ?_⟩
            rintro ⟨h1, h2⟩
            rw [hcp] at h1
            injection h1 with h1
            exact hnc ⟨h2.symm, h1.symm⟩

/-! ### Key-set lemmas and the nodup-keys invariant -/

theorem aremove_sublist {β : Type} (l : List (Nat × β)) (k : Nat) :
    (aremove l k).Sublist l := by
  induction l with
  | nil => simp [aremove]
  | cons p rest ih =>
    by_cases hp : p.1 = k
    · simp only [aremove, if_pos hp]
      exact ih.cons _
    · simp only [aremove, if_neg hp]
      exact ih.cons₂ _

theorem aupdate_keys {β : Type} (l : List (Nat × β)) (k : Nat) (v : β) :
    (aupdate l k v).map Prod.fst = l.map Prod.fst := by
  induction l with
  | nil => rfl
  | cons p rest ih =>
    by_cases hp : p.1 = k
    · simp only [aupdate, if_pos hp, List.map_cons, ih]
      simp [hp]
    · simp only [aupdate, if_neg hp, List.map_cons, ih]

theorem alookup_none_not_mem_keys {β : Type} {l : List (Nat × β)} {k : Nat}
    (h : alookup l k = none) : k ∉ l.map Prod.fst := by
  induction l with
  | nil => simp
  | cons p rest ih =>
    by_cases hp : p.1 = k
    · simp [alookup, hp] at h
    · simp only [alookup, if_neg hp] at h
      simp only [List.map_cons, List.mem_cons]
      rintro (h1 | h2)
      · exact hp h1.symm
      · exact ih h h2

theorem alookup_of_mem_nodup {β : Type} {l : List (Nat × β)} {k : Nat} {v : β}
    (hm : (k, v) ∈ l) (hn : (l.map Prod.fst).Nodup) : alookup l k = some v := by
  induction l with
  | nil => simp at hm
  | cons p rest ih =>
    simp only [List.map_cons, List.nodup_cons] at hn
    rcases List.mem_cons.mp hm with h1 | h2
    · rw [← h1]
      simp [alookup]
    · have hp : ¬ p.1 = k := by
        intro hh
        exact hn.1 (hh ▸ (List.mem_map.mpr ⟨(k, v), h2, rfl⟩))
      simp only [alookup, if_neg hp]
      exact ih h2 hn.2

theorem alookup_aupdate_none {β : Type} {l : List (Nat × β)} {b : Nat}
    (k : Nat) (v : β) (h : alookup l b = none) :
    alookup (aupdate l k v) b = none := by
  by_cases hk : k = b
  · subst hk
    rw [alookup_aupdate_self, h]
    rfl
  · rw [alookup_aupdate_other _ _ _ _ hk]
    exact h

/-- Nodup-keys invariant of the watches map. -/
def KInv (s : MState) : Prop := (s.watches.map Prod.fst).Nodup

theorem stopWatch_lookup_self (s : MState) (bid : Nat) :
    alookup (stopWatch s bid).watches bid = none := by
  cases hal : alookup s.watches bid with
  | none => simp [stopWatch, hal]
  | some w => simp [stopWatch, hal, alookup_aremove_self]

theorem KInv_stopWatch {s : MState} (bid : Nat) (h : KInv s) : KInv (stopWatch s bid) := by
  cases hal : alookup s.watches bid with
  | none => simpa [stopWatch, hal] using h
  | some w =>
    simp only [KInv, stopWatch, hal]
    exact h.sublist ((aremove_sublist _ _).map Prod.fst)

theorem KInv_runTick {s : MState} (bid : Nat) (h : KInv s) : KInv (runTick s bid) := by
  cases hal : alookup s.watches bid with
  | none => simpa [runTick, hal] using h
  | some st =>
    by_cases hstop : st.stopped = true
    · simpa [runTick, hal, hstop] using h
    · cases hcp : st.currentProcessId with
      | none =>
        simp only [runTick, hal]
        rw [if_neg hstop]
        simp only [hcp, KInv, aupdate_keys]
        exact h
      | some pid =>
        by_cases hk : (tableGet s.table st.projectSlug pid).map ProcRec.status =
            some PStatus.running
        · simp only [runTick, hal]
          rw [if_neg hstop]
          simp only [hcp, hk, if_true, KInv, aupdate_keys]
          exact h
        · simp only [runTick, hal]
          rw [if_neg hstop]
          simp only [hcp, hk, if_false, KInv, aupdate_keys]
          exact h

theorem KInv_startWatch {s : MState} (slug : Nat) (b : Bookmark) (h : KInv s) :
    KInv (startWatch s slug b) := by
  apply KInv_runTick
  show KInv { watches := (stopWatch s b.id).watches ++ [(b.id, _)],
              table := (stopWatch s b.id).table, nextId := (stopWatch s b.id).nextId }
  have h1 : KInv (stopWatch s b.id) := KInv_stopWatch b.id h
  have h2 : (b.id : Nat) ∉ (stopWatch s b.id).watches.map Prod.fst :=
    alookup_none_not_mem_keys (stopWatch_lookup_self s b.id)
  simp only [KInv, List.map_append] at h1 ⊢
  rw [List.nodup_append]
  exact ⟨h1, List.nodup_singleton _, by
    intro a ha hb2
    simp only [List.map_cons, List.map_nil, List.mem_singleton] at hb2
    rw [hb2] at ha
    exact h2 ha⟩

theorem KInv_loadProj {s : MState} (slug : Nat) (bl : List Bookmark) (h : KInv s) :
    KInv (loadProj s slug bl) := by
  induction bl generalizing s with
  | nil => simpa [loadProj] using h
  | cons b rest ih =>
    simp only [loadProj]
    by_cases he : watchEnabled b = true
    · rw [if_pos he]
      exact ih (KInv_startWatch slug b h)
    · rw [if_neg he]
      exact ih h

theorem KInv_loadProjects {s : MState} (ps : List (Nat × List Bookmark)) (h : KInv s) :
    KInv (loadProjects s ps) := by
  induction ps generalizing s with
  | nil => simpa [loadProjects] using h
  | cons p rest ih =>
    simp only [loadProjects]
    exact ih (KInv_loadProj p.1 p.2 h)

theorem KInv_tickFire {s : MState} (bid : Nat) (h : KInv s) : KInv (tickFire s bid) := by
  cases hal : alookup s.watches bid with
  | none => simpa [tickFire, hal] using h
  | some st =>
    cases ht : st.timer with
    | none => simpa [tickFire, hal, ht] using h
    | some d =>
      simp only [tickFire, hal, ht]
      apply KInv_runTick
      simpa only [KInv, aupdate_keys] using h

theorem KInv_timeoutFire {s : MState} (bid : Nat) (h : KInv s) : KInv (timeoutFire s bid) := by
  cases hal : alookup s.watches bid with
  | none => simpa [timeoutFire, hal] using h
  | some st =>
    cases ht : st.tickTimeoutTimer with
    | none => simpa [timeoutFire, hal, ht] using h
    | some d =>
      simp only [timeoutFire, hal, ht]
      simpa only [KInv, aupdate_keys] using h

theorem KInv_exitFire {s : MState} (pid : Nat) (h : KInv s) : KInv (exitFire s pid) := by
  cases hf : s.table.find? (fun r => r.id == pid && !r.exitEmitted) with
  | none => simpa [exitFire, hf] using h
  | some r0 =>
    cases hfl : findListener s.watches pid with
    | none => simpa [exitFire, hf, hfl] using h
    | some p =>
      obtain ⟨bid, st⟩ := p
      simp only [exitFire, hf, hfl]
      simpa only [KInv, aupdate_keys] using h

theorem KInv_wstep {s : MState} (e : WEvent) (h : KInv s) : KInv (wstep s e) := by
  cases e with
  | startW slug b => exact KInv_startWatch slug b h
  | stopW bid => exact KInv_stopWatch bid h
  | load allB => exact KInv_loadProjects allB.projects h
  | tick bid => exact KInv_tickFire bid h
  | timeout bid => exact KInv_timeoutFire bid h
  | exited pid => exact KInv_exitFire pid h

/-! ### WInv preservation for the remaining operations -/

theorem WInv_stopWatch {s : MState} (bid : Nat) (h : WInv s) : WInv (stopWatch s bid) := by
  cases hal : alookup s.watches bid with
  | none => simpa [stopWatch, hal] using h
  | some w =>
    simp only [stopWatch, hal]
    cases hcp : w.currentProcessId with
    | none =>
      refine ⟨h.nodup, h.bound, ?_, ?_⟩
      · intro p hp
        exact h.keyeq _ (mem_aremove hp)
      · intro r hr hrun2 b hb
        rcases h.tag r hr hrun2 b hb with ⟨st0, hst0, hcp0, hslug⟩
        by_cases hbb : b = bid
        · subst hbb
          rw [hal] at hst0
          injection hst0 with hst0
          subst hst0
          rw [hcp] at hcp0
          cases hcp0
        · refine ⟨st0, ?_, hcp0, hslug⟩
          rw [alookup_aremove_other _ _ _ (fun hh => hbb hh.symm)]
          exact hst0
    | some pid =>
      refine ⟨?_, ?_, ?_, ?_⟩
      · show ((tableKill s.table w.projectSlug pid).map ProcRec.id).Nodup
        rw [tableKill_map_id]
        exact h.nodup
      · intro r hr
        rcases mem_tableKill_id hr with ⟨r0, hr0, hid, _⟩
        show r.id < s.nextId
        rw [hid]
        exact h.bound r0 hr0
      · intro p hp
        exact h.keyeq _ (mem_aremove hp)
      · intro r hr hrun2 b hb
        rcases mem_tableKill_running hr hrun2 with ⟨hmem, hnc⟩
        rcases h.tag r hmem hrun2 b hb with ⟨st0, hst0, hcp0, hslug⟩
        by_cases hbb : b = bid
        · subst hbb
          rw [hal] at hst0
          injection hst0 with hst0
          subst hst0
          rw [hcp] at hcp0
          injection hcp0 with hcp0
          exact absurd ⟨hslug.symm, hcp0.symm⟩ hnc
        · refine ⟨st0, ?_, hcp0, hslug⟩
          rw [alookup_aremove_other _ _ _ (fun hh => hbb hh.symm)]
          exact hst0

theorem WInv_startWatch {s : MState} (slug : Nat) (b : Bookmark) (h : WInv s) :
    WInv (startWatch s slug b) := by
  apply WInv_runTick
  have h1 : WInv (stopWatch s b.id) := WInv_stopWatch b.id h
  refine ⟨h1.nodup, h1.bound, ?_, ?_⟩
  · intro p hp
    rcases List.mem_append.mp hp with hm | hm
    · exact h1.keyeq _ hm
    · simp only [List.mem_singleton] at hm
      rw [hm]
  · intro r hr hrun2 b2 hb
    rcases h1.tag r hr hrun2 b2 hb with ⟨st0, hst0, hcp0, hslug⟩
    exact ⟨st0, alookup_append_some _ _ _ _ hst0, hcp0, hslug⟩

theorem WInv_loadProj {s : MState} (slug : Nat) (bl : List Bookmark) (h : WInv s) :
    WInv (loadProj s slug bl) := by
  induction bl generalizing s with
  | nil => simpa [loadProj] using h
  | cons b rest ih =>
    simp only [loadProj]
    by_cases he : watchEnabled b = true
    · rw [if_pos he]
      exact ih (WInv_startWatch slug b h)
    · rw [if_neg he]
      exact ih h

theorem WInv_loadProjects {s : MState} (ps : List (Nat × List Bookmark)) (h : WInv s) :
    WInv (loadProjects s ps) := by
  induction ps generalizing s with
  | nil => simpa [loadProjects] using h
  | cons p rest ih =>
    simp only [loadProjects]
    exact ih (WInv_loadProj p.1 p.2 h)

/-- Helper: replacing the state under an existing key with one that keeps
the bookmark, current process and slug, while the table shrinks to
id-preserved records whose running members were already present,
preserves the invariant. -/
theorem WInv_update_keep (s : MState) (bid : Nat) (st st' : WatchState)
    (t' : List ProcRec) (h : WInv s) (hal : alookup s.watches bid = some st)
    (hb : st'.bookmark = st.bookmark) (hcp : st'.currentProcessId = st.currentProcessId)
    (hsl : st'.projectSlug = st.projectSlug)
    (ht1 : (t'.map ProcRec.id).Nodup)
    (ht2 : ∀ r ∈ t', ∃ r0 ∈ s.table, r.id = r0.id)
    (ht3 : ∀ r ∈ t', r.status = .running → r ∈ s.table) :
    WInv { watches := aupdate s.watches bid st', table := t', nextId := s.nextId } := by
  refine ⟨ht1, ?_, ?_, ?_⟩
  · intro r hr
    rcases ht2 r hr with ⟨r0, hr0, hid⟩
    show r.id < s.nextId
    rw [hid]
    exact h.bound r0 hr0
  · intro p hp
    rcases mem_aupdate hp with hm | he
    · exact h.keyeq _ hm
    · rw [he]
      show st'.bookmark.id = bid
      rw [hb]
      exact h.keyeq _ (alookup_mem hal)
  · intro r hr hrun2 b hb2
    rcases h.tag r (ht3 r hr hrun2) hrun2 b hb2 with ⟨st0, hst0, hcp0, hslug⟩
    by_cases hbb : b = bid
    · subst hbb
      rw [hal] at hst0
      injection hst0 with hst0
      subst hst0
      refine ⟨st', ?_, ?_, ?_⟩
      · rw [alookup_aupdate_self, hal]
        rfl
      · rw [hcp]
        exact hcp0
      · rw [hsl]
        exact hslug
    · refine ⟨st0, ?_, hcp0, hslug⟩
      rw [alookup_aupdate_other _ _ _ _ (fun hh => hbb hh.symm)]
      exact hst0

theorem WInv_tickFire {s : MState} (bid : Nat) (h : WInv s) : WInv (tickFire s bid) := by
  cases hal : alookup s.watches bid with
  | none => simpa [tickFire, hal] using h
  | some st =>
    cases ht : st.timer with
    | none => simpa [tickFire, hal, ht] using h
    | some d =>
      simp only [tickFire, hal, ht]
      apply WInv_runTick
      apply WInv_update_keep s bid st { st with timer := none } s.table h hal rfl rfl rfl
        h.nodup
      · intro r hr
        exact ⟨r, hr, rfl⟩
      · intro r hr _
        exact hr

theorem WInv_timeoutFire {s : MState} (bid : Nat) (h : WInv s) : WInv (timeoutFire s bid) := by
  cases hal : alookup s.watches bid with
  | none => simpa [timeoutFire, hal] using h
  | some st =>
    cases ht : st.tickTimeoutTimer with
    | none => simpa [timeoutFire, hal, ht] using h
    | some d =>
      simp only [timeoutFire, hal, ht]
      cases hcp : st.currentProcessId with
      | none =>
        simp only [hcp]
        apply WInv_update_keep s bid st
          { st with tickTimeoutTimer := none, currentProcessId := none } s.table h hal
          rfl hcp.symm rfl h.nodup
        · intro r hr
          exact ⟨r, hr, rfl⟩
        · intro r hr _
          exact hr
      | some pid =>
        simp only [hcp]
        by_cases hk : (tableGet s.table st.projectSlug pid).map ProcRec.status =
            some PStatus.running
        · simp only [hk, if_true]
          apply WInv_update_keep s bid st
            { st with tickTimeoutTimer := none, currentProcessId := some pid } _ h hal
            rfl hcp.symm rfl
          · rw [tableKill_map_id]
            exact h.nodup
          · intro r hr
            rcases mem_tableKill_id hr with ⟨r0, hr0, hid, _⟩
            exact ⟨r0, hr0, hid⟩
          · intro r hr hrun2
            exact (mem_tableKill_running hr hrun2).1
        · simp only [hk, if_false]
          apply WInv_update_keep s bid st
            { st with tickTimeoutTimer := none, currentProcessId := some pid } s.table h hal
            rfl hcp.symm rfl h.nodup
          · intro r hr
            exact ⟨r, hr, rfl⟩
          · intro r hr _
            exact hr

theorem exitMark_id (pid : Nat) (r : ProcRec) : (exitMark pid r).id = r.id := by
  unfold exitMark
  split <;> rfl

theorem exitMark_running {pid : Nat} {r : ProcRec}
    (h : (exitMark pid r).status = .running) : exitMark pid r = r := by
  unfold exitMark at h ⊢
  by_cases hid : r.id = pid
  · rw [if_pos hid] at h ⊢
    by_cases hs : r.status = .running
    · simp [hs] at h
    · simp only [hs, if_false] at h
  · rw [if_neg hid]

theorem WInv_exitFire {s : MState} (pid : Nat) (h : WInv s) (hks : KInv s) :
    WInv (exitFire s pid) := by
  cases hf : s.table.find? (fun r => r.id == pid && !r.exitEmitted) with
  | none => simpa [exitFire, hf] using h
  | some r0 =>
    have hmapid : (s.table.map (exitMark pid)).map ProcRec.id = s.table.map ProcRec.id := by
      rw [List.map_map]
      exact List.map_congr_left (fun r _ => exitMark_id pid r)
    have ht1 : ((s.table.map (exitMark pid)).map ProcRec.id).Nodup := by
      rw [hmapid]
      exact h.nodup
    have ht2 : ∀ r ∈ s.table.map (exitMark pid), ∃ q ∈ s.table, r.id = q.id := by
      intro r hr
      rcases List.mem_map.mp hr with ⟨q, hq, hrq⟩
      exact ⟨q, hq, by rw [← hrq, exitMark_id]⟩
    have ht3 : ∀ r ∈ s.table.map (exitMark pid), r.status = .running → r ∈ s.table := by
      intro r hr hrun
      rcases List.mem_map.mp hr with ⟨q, hq, hrq⟩
      rw [← hrq] at hrun ⊢
      rw [exitMark_running hrun]
      exact hq
    cases hfl : findListener s.watches pid with
    | none =>
      simp only [exitFire, hf, hfl]
      refine ⟨ht1, ?_, h.keyeq, ?_⟩
      · intro r hr
        rcases ht2 r hr with ⟨q, hq, hid⟩
        show r.id < s.nextId
        rw [hid]
        exact h.bound q hq
      · intro r hr hrun b hb
        exact h.tag r (ht3 r hr hrun) hrun b hb
    | some p =>
      obtain ⟨bid, st⟩ := p
      have hmem : (bid, st) ∈ s.watches := List.mem_of_find?_eq_some hfl
      have hal : alookup s.watches bid = some st := alookup_of_mem_nodup hmem hks
      simp only [exitFire, hf, hfl]
      apply WInv_update_keep s bid st _ _ h hal ?_ ?_ ?_ ht1 ht2 ht3
      · by_cases hst : st.stopped = true <;> simp [hst]
      · by_cases hst : st.stopped = true <;> simp [hst]
      · by_cases hst : st.stopped = true <;> simp [hst]

theorem WInv_wstep {s : MState} (e : WEvent) (h : WInv s) (hk : KInv s) :
    WInv (wstep s e) := by
  cases e with
  | startW slug b => exact WInv_startWatch slug b h
  | stopW bid => exact WInv_stopWatch bid h
  | load allB => exact WInv_loadProjects allB.projects h
  | tick bid => exact WInv_tickFire bid h
  | timeout bid => exact WInv_timeoutFire bid h
  | exited pid => exact WInv_exitFire pid h hk

theorem WInv_wrun (s : MState) (evs : List WEvent) (h : WInv s) (hk : KInv s) :
    WInv (wrun s evs) ∧ KInv (wrun s evs) := by
  induction evs generalizing s with
  | nil => exact ⟨h, hk⟩
  | cons e rest ih => exact ih (wstep s e) (WInv_wstep e h hk) (KInv_wstep e hk)

theorem filter_length_le_one {t : List ProcRec} (p : ProcRec → Bool) (k : Nat)
    (hn : (t.map ProcRec.id).Nodup) (hp : ∀ r ∈ t, p r = true → r.id = k) :
    (t.filter p).length ≤ 1 := by
  induction t with
  | nil => simp
  | cons r rest ih =>
    simp only [List.map_cons, List.nodup_cons] at hn
    cases hpr : p r with
    | false =>
      simp only [List.filter_cons, hpr, if_false]
      exact ih hn.2 (fun q hq hpq => hp q (List.mem_cons_of_mem _ hq) hpq)
    | true =>
      simp only [List.filter_cons, hpr, if_true]
      have hrest : rest.filter p = [] := by
        rw [List.filter_eq_nil_iff]
        intro q hq hpq
        have h1 : q.id = k := hp q (List.mem_cons_of_mem _ hq) hpq
        have h2 : r.id = k := hp r (List.mem_cons_self _ _) hpr
        exact hn.1 (by
          rw [h2, ← h1]
          exact List.mem_map.mpr ⟨q, hq, rfl⟩)
      rw [hrest]
      simp

theorem runningCount_le_one {s : MState} (h : WInv s) (bid : Nat) :
    runningCount s bid ≤ 1 := by
  unfold runningCount
  cases hal : alookup s.watches bid with
  | none =>
    have hnil : s.table.filter
        (fun r => r.watchBookmarkId == some bid && r.status == PStatus.running) = [] := by
      rw [List.filter_eq_nil_iff]
      intro r hr hpr
      simp only [Bool.and_eq_true, beq_iff_eq] at hpr
      rcases h.tag r hr hpr.2 bid hpr.1 with ⟨st0, hst0, _, _⟩
      rw [hal] at hst0
      cases hst0
    rw [hnil]
    simp
  | some st =>
    cases hcp : st.currentProcessId with
    | none =>
      have hnil : s.table.filter
          (fun r => r.watchBookmarkId == some bid && r.status == PStatus.running) = [] := by
        rw [List.filter_eq_nil_iff]
        intro r hr hpr
        simp only [Bool.and_eq_true, beq_iff_eq] at hpr
        rcases h.tag r hr hpr.2 bid hpr.1 with ⟨st0, hst0, hcp0, _⟩
        rw [hal] at hst0
        injection hst0 with hst0
        subst hst0
        rw [hcp] at hcp0
        cases hcp0
      rw [hnil]
      simp
    | some pid =>
      apply filter_length_le_one _ pid h.nodup
      intro r hr hpr
      simp only [Bool.and_eq_true, beq_iff_eq] at hpr
      rcases h.tag r hr hpr.2 bid hpr.1 with ⟨st0, hst0, hcp0, _⟩
      rw [hal] at hst0
      injection hst0 with hst0
      subst hst0
      rw [hcp] at hcp0
      injection hcp0 with hcp0
      exact hcp0.symm

/-! ### C1: no tick overlap -/

/-- C1: starting from boot, under every sequence of scheduler events
(public operations, timer firings, tick timeouts, process exits), every
bookmark id has at most one live (running) watch-tagged ProcessRecord at
any time: a tick deregisters the previous process before spawning, and
the next tick is armed only from the current process's exit listener. -/
theorem watch_no_tick_overlap (evs : List WEvent) (bid : Nat) :
    runningCount (wrun initState evs) bid ≤ 1 := by
  have hW : WInv initState := by
    refine ⟨?_, ?_, ?_, ?_⟩ <;> simp [initState]
  have hK : KInv initState := by
    simp [KInv, initState]
  exact runningCount_le_one (WInv_wrun initState evs hW hK).1 bid

/-! ### C4: selective resume -/

theorem alookup_aupdate_isSome {β : Type} (l : List (Nat × β)) (kk k : Nat) (v : β) :
    (alookup (aupdate l kk v) k).isSome = (alookup l k).isSome := by
  by_cases hk : kk = k
  · subst hk
    rw [alookup_aupdate_self]
    cases alookup l kk <;> rfl
  · rw [alookup_aupdate_other _ _ _ _ hk]

theorem runTick_lookup_isSome (s : MState) (bid k : Nat) :
    (alookup (runTick s bid).watches k).isSome = (alookup s.watches k).isSome := by
  cases hal : alookup s.watches bid with
  | none => simp [runTick, hal]
  | some st =>
    by_cases hstop : st.stopped = true
    · simp [runTick, hal, hstop]
    · cases hcp : st.currentProcessId with
      | none =>
        simp only [runTick, hal]
        rw [if_neg hstop]
        simp only [hcp]
        exact alookup_aupdate_isSome _ _ _ _
      | some pid =>
        by_cases hk : (tableGet s.table st.projectSlug pid).map ProcRec.status =
            some PStatus.running
        · simp only [runTick, hal]
          rw [if_neg hstop]
          simp only [hcp, hk, if_true]
          exact alookup_aupdate_isSome _ _ _ _
        · simp only [runTick, hal]
          rw [if_neg hstop]
          simp only [hcp, hk, if_false]
          exact alookup_aupdate_isSome _ _ _ _

theorem stopWatch_lookup_other (s : MState) (bid k : Nat) (h : ¬ bid = k) :
    alookup (stopWatch s bid).watches k = alookup s.watches k := by
  cases hal : alookup s.watches bid with
  | none => simp [stopWatch, hal]
  | some w =>
    simp only [stopWatch, hal]
    exact alookup_aremove_other _ _ _ h

theorem startWatch_lookup_isSome (s : MState) (slug : Nat) (b : Bookmark) (k : Nat) :
    (alookup (startWatch s slug b).watches k).isSome =
      (k == b.id || (alookup s.watches k).isSome) := by
  unfold startWatch
  rw [runTick_lookup_isSome]
  by_cases hk : k = b.id
  · subst hk
    rw [alookup_append_none _ _ _ (stopWatch_lookup_self s b.id)]
    simp [alookup]
  · have hne : (k == b.id) = false := by simp [hk]
    rw [hne, Bool.false_or]
    cases hal : alookup (stopWatch s b.id).watches k with
    | none =>
      rw [alookup_append_none _ _ _ hal]
      rw [stopWatch_lookup_other s b.id k (fun hh => hk hh.symm)] at hal
      rw [hal]
      have hbne : ¬ b.id = k := fun hh => hk hh.symm
      simp [alookup, hbne]
    | some v =>
      rw [alookup_append_some _ _ _ _ hal]
      rw [stopWatch_lookup_other s b.id k (fun hh => hk hh.symm)] at hal
      rw [hal]

theorem loadProj_lookup_isSome (s : MState) (slug k : Nat) (bl : List Bookmark) :
    (alookup (loadProj s slug bl).watches k).isSome =
      (bl.any (fun b => b.id == k && watchEnabled b) || (alookup s.watches k).isSome) := by
  induction bl generalizing s with
  | nil => simp [loadProj]
  | cons b rest ih =>
    simp only [loadProj, List.any_cons]
    by_cases he : watchEnabled b = true
    · rw [if_pos he, ih, startWatch_lookup_isSome, he, Bool.and_true]
      have hbk : (k == b.id) = (b.id == k) := by
        cases hh : (k == b.id) <;> cases hh2 : (b.id == k) <;> simp_all
      rw [hbk]
      cases b.id == k <;> cases rest.any (fun b => b.id == k && watchEnabled b) <;>
        cases (alookup s.watches k).isSome <;> rfl
    · have he2 : watchEnabled b = false := by
        cases hh : watchEnabled b
        · rfl
        · exact absurd hh he
      rw [if_neg he, ih, he2, Bool.and_false, Bool.false_or]

theorem loadProjects_lookup_isSome (s : MState) (k : Nat) (ps : List (Nat × List Bookmark)) :
    (alookup (loadProjects s ps).watches k).isSome =
      (ps.any (fun p => p.2.any (fun b => b.id == k && watchEnabled b)) ||
        (alookup s.watches k).isSome) := by
  induction ps generalizing s with
  | nil => simp [loadProjects]
  | cons p rest ih =>
    simp only [loadProjects, List.any_cons]
    rw [ih, loadProj_lookup_isSome]
    cases p.2.any (fun b => b.id == k && watchEnabled b) <;>
      cases rest.any (fun p => p.2.any (fun b => b.id == k && watchEnabled b)) <;>
      cases (alookup s.watches k).isSome <;> rfl

/-- C4: after boot-time `loadFromBookmarks`, a WatchState is active
exactly for the project-scoped bookmarks whose persisted `watch.enabled`
is truthy; the global list is never consulted, so global bookmarks never
get a WatchState from this call. -/
theorem loadFromBookmarks_selective_resume (allB : BookmarksData) (bid : Nat) :
    (alookup (loadFromBookmarks initState allB).watches bid).isSome =
      allB.projects.any (fun p => p.2.any (fun b => b.id == bid && watchEnabled b)) := by
  unfold loadFromBookmarks
  rw [loadProjects_lookup_isSome]
  simp [initState, alookup]

/-! ### C5: stopWatch is idempotent and total -/

theorem stopWatch_of_none {s : MState} {bid : Nat}
    (h : alookup s.watches bid = none) : stopWatch s bid = s := by
  simp [stopWatch, h]

/-- C5: `stopWatch` on a bookmark with no active watch is a no-op;
stopping twice equals stopping once; after any call the watches map has
no entry for the id; and a subsequent process-exit event can never
re-register or reschedule that bookmark (the in-flight callback finds no
active watch). -/
theorem stopWatch_idempotent (s : MState) (bid : Nat) :
    (alookup s.watches bid = none → stopWatch s bid = s) ∧
    stopWatch (stopWatch s bid) bid = stopWatch s bid ∧
    alookup (stopWatch s bid).watches bid = none ∧
    (∀ pid, alookup (exitFire (stopWatch s bid) pid).watches bid = none) := by
  refine ⟨fun h => stopWatch_of_none h, ?_, stopWatch_lookup_self s bid, ?_⟩
  · exact stopWatch_of_none (stopWatch_lookup_self s bid)
  · intro pid
    have h0 : alookup (stopWatch s bid).watches bid = none := stopWatch_lookup_self s bid
    cases hf : (stopWatch s bid).table.find? (fun r => r.id == pid && !r.exitEmitted) with
    | none => simpa [exitFire, hf] using h0
    | some r0 =>
      cases hfl : findListener (stopWatch s bid).watches pid with
      | none => simpa [exitFire, hf, hfl] using h0
      | some p =>
        obtain ⟨b2, st2⟩ := p
        simp only [exitFire, hf, hfl]
        exact alookup_aupdate_none _ _ h0

/-- C5 witness: stopping a bookmark with no active watch on the boot
state is a no-op. -/
theorem stopWatch_idempotent_witness :
    alookup initState.watches 4 = none ∧ stopWatch initState 4 = initState :=
  ⟨rfl, (stopWatch_idempotent initState 4).1 rfl⟩

/-! ### C9: reschedule delay is floored at one second -/

theorem mem_aupdate_self {β : Type} {l : List (Nat × β)} {k : Nat} {w : β} (v : β)
    (hm : (k, w) ∈ l) : (k, v) ∈ aupdate l k v := by
  induction l with
  | nil => simp at hm
  | cons p rest ih =>
    rcases List.mem_cons.mp hm with h1 | h2
    · simp only [aupdate]
      rw [← h1]
      simp
    · exact List.mem_cons_of_mem _ (ih h2)

/-- C9: when a watched process's exit listener runs and the watch has not
been stopped, the next-tick timer is armed with
`max(1, interval ?? 10) * 1000` milliseconds for the watch's stored
bookmark, and that delay is never below 1000 ms (even for a zero,
negative or missing persisted interval). -/
theorem watch_reschedule_delay (s : MState) (pid bid : Nat) (st : WatchState) (r0 : ProcRec)
    (hf : s.table.find? (fun r => r.id == pid && !r.exitEmitted) = some r0)
    (hfl : findListener s.watches pid = some (bid, st))
    (hst : st.stopped = false) :
    (bid, { st with
      tickTimeoutTimer := none, currentExitListener := false,
      timer := some (rescheduleDelayMs st.bookmark) }) ∈ (exitFire s pid).watches ∧
    (1000 : ℚ) ≤ rescheduleDelayMs st.bookmark := by
  constructor
  · simp only [exitFire, hf, hfl, hst, Bool.false_eq_true, if_false]
    exact mem_aupdate_self _ (List.mem_of_find?_eq_some hfl)
  · unfold rescheduleDelayMs
    have hmax : (1 : ℚ) ≤ max 1 ((st.bookmark.watch.bind WatchCfg.interval).getD 10) :=
      le_max_left _ _
    nlinarith

/-- The bookmark of the C9 witness: persisted interval 0 (below the
floor). -/
def bkC9 : Bookmark :=
  { id := 7, command := 3, cwd := none, createdAt := 0,
    watch := some { enabled := true, interval := some 0, mode := none, timeout := none },
    scopeTag := none }

/-- The WatchState right after the first tick of `bkC9`. -/
def stC9 : WatchState :=
  { timer := none, tickTimeoutTimer := some (30000 : ℚ), projectSlug := 1,
    bookmark := bkC9, currentProcessId := some 0, currentExitListener := true,
    stopped := false }

/-- C9 witness: the first tick's process of a freshly started watch with
interval 0 exits; the rearmed timer delay is `rescheduleDelayMs bkC9`
(= 1000 ms) and is at least 1000 ms. -/
theorem watch_reschedule_delay_witness :
    (7, { stC9 with
      tickTimeoutTimer := none, currentExitListener := false,
      timer := some (rescheduleDelayMs bkC9) }) ∈
        (exitFire (startWatch initState 1 bkC9) 0).watches ∧
    (1000 : ℚ) ≤ rescheduleDelayMs bkC9 :=
  watch_reschedule_delay (startWatch initState 1 bkC9) 0 7 stC9
    { id := 0, slug := 1, isWatch := true, watchBookmarkId := some 7,
      status := .running, exitEmitted := false }
    (by decide) (by decide) rfl
